import Mathlib

/-!
# Verification of the Music-Informatics performance-comparison core

Shallow embedding of the core algorithms of the repository:

* `note_recognition.py` — onset segmentation (`noteparse`, `notewindows`),
  pitch estimation (`helpfindoctave`, `choosepitch`, `findpitch`);
* `dtw.py` — feature quantization (`create_chroma_sequence`) and DTW scoring
  (`compare_onsets_dtw`, `compare_onsets_dtw_weighted`), which delegate the
  alignment itself to the `fastdtw` library (radius 1, scalar absolute-difference
  local distance), embedded here as well.

Real-valued samples are modelled as rationals (`ℚ`); Python exceptions are
modelled with `Except PyErr`; Python's recursion limit is modelled by a fuel
parameter whose exhaustion is `PyErr.recursionError`.
-/

unseal Rat.add Rat.mul Rat.inv Rat.sub Rat.ofScientific

namespace MusicInformatics

/-- Structural decidable equality for `Except`, written so that it reduces in
the kernel (needed for `decide` on concrete program runs). -/
def exceptDecEq {ε α : Type} [DecidableEq ε] [DecidableEq α] :
    (a b : Except ε α) → Decidable (a = b)
  | .error e, .error f =>
    match decEq e f with
    | isTrue h => isTrue (h ▸ rfl)
    | isFalse h => isFalse fun hc => h (Except.error.inj hc)
  | .error _, .ok _ => isFalse fun hc => Except.noConfusion hc
  | .ok _, .error _ => isFalse fun hc => Except.noConfusion hc
  | .ok x, .ok y =>
    match decEq x y with
    | isTrue h => isTrue (h ▸ rfl)
    | isFalse h => isFalse fun hc => h (Except.ok.inj hc)

instance {ε α : Type} [DecidableEq ε] [DecidableEq α] : DecidableEq (Except ε α) :=
  exceptDecEq

/-- Kinds of Python exceptions the embedded code can raise. -/
inductive PyErr where
  /-- Python `ValueError` (e.g. `max()` of an empty sequence, `np.zeros` of a negative
  size, or the explicit `raise ValueError` in `choosepitch`). -/
  | valueError
  /-- Python `IndexError` (out-of-bounds array write). -/
  | indexError
  /-- Python `TypeError` (e.g. `range(None, n)`). -/
  | typeError
  /-- Python `RecursionError`: the Python recursion limit was exceeded.  In this
  embedding it is the value returned when a fuel parameter runs out. -/
  | recursionError
  deriving DecidableEq, Repr

/-! ## Pitch estimator (`note_recognition.py`)

`helpfindoctave` is written in the source as an unbounded recursion:

```python
def helpfindoctave(f, o):
    if 254.284 <= f <= 508.5675:
        return o
    elif f < 254.284:
        return helpfindoctave(2 * f, o - 1)
    else:
        return helpfindoctave(f / 2, o + 1)
```

The `fuel` argument models Python's finite recursion depth; running out of
fuel corresponds to the interpreter raising `RecursionError`.
-/

/-- Embedding of `helpfindoctave` from `note_recognition.py`. -/
def helpfindoctave : ℕ → ℚ → ℤ → Except PyErr ℤ
  | 0, _, _ => .error .recursionError
  | fuel + 1, f, o =>
    if 254.284 ≤ f ∧ f ≤ 508.5675 then .ok o
    else if f < 254.284 then helpfindoctave fuel (2 * f) (o - 1)
    else helpfindoctave fuel (f / 2) (o + 1)

/-- Embedding of `choosepitch` from `note_recognition.py`: twelve contiguous
semitone bins; a frequency outside them raises
`ValueError('Frequency outside of acceptable range')`. -/
def choosepitch (f : ℚ) : Except PyErr ℕ :=
  if 254.284 ≤ f ∧ f < 269.4045 then .ok 1      -- C
  else if 269.4045 ≤ f ∧ f < 285.424 then .ok 2  -- C#
  else if 285.424 ≤ f ∧ f < 302.396 then .ok 3   -- D
  else if 302.396 ≤ f ∧ f < 320.3775 then .ok 4  -- D#
  else if 320.3775 ≤ f ∧ f < 339.428 then .ok 5  -- E
  else if 339.428 ≤ f ∧ f < 359.611 then .ok 6   -- F
  else if 359.611 ≤ f ∧ f < 380.9945 then .ok 7  -- F#
  else if 380.9945 ≤ f ∧ f < 403.65 then .ok 8   -- G
  else if 403.65 ≤ f ∧ f < 427.6525 then .ok 9   -- G#
  else if 427.6525 ≤ f ∧ f < 453.082 then .ok 10 -- A
  else if 453.082 ≤ f ∧ f < 480.0235 then .ok 11 -- A#
  else if 480.0235 ≤ f ∧ f < 508.567 then .ok 12 -- B
  else .error .valueError

/-- Embedding of `findpitch` from `note_recognition.py`:
`octave = helpfindoctave(freq, 0); pitch = choosepitch(freq / 2**octave)`. -/
def findpitch (fuel : ℕ) (freq : ℚ) : Except PyErr (ℕ × ℤ) := do
  let octave ← helpfindoctave fuel freq 0
  let pitch ← choosepitch (freq / (2 : ℚ) ^ octave)
  .ok (pitch, octave)

/-! ## Onset segmenter (`note_recognition.py`) -/

/-- Embedding of `np.max` over a non-empty list (`[]` is handled by the caller, mirroring
the fact that `np.max` on an empty array raises). -/
def npMaxD : List ℚ → ℚ
  | [] => 0
  | x :: xs => xs.foldl max x

/-- The enter threshold of `noteparse`: `threshup = 0.2 * np.max(data)`.
Note the source takes the signed maximum, not the maximum absolute value. -/
def threshup (data : List ℚ) : ℚ := 0.2 * npMaxD data

/-- The exit threshold of `noteparse`: `threshdown = 0.04 * np.max(data)`. -/
def threshdown (data : List ℚ) : ℚ := 0.04 * npMaxD data

/-- Embedding of `np.max(np.abs(data[i-50:i+50]))`: the local-amplitude envelope evaluated
at index `i`.  The Python slice covers indices `i-50 .. i+49`.  Inside the
`noteparse` loop the slice always has exactly 100 elements, so folding from 0
(absolute values are non-negative) agrees with `np.max`. -/
def sliceAbsMax (data : List ℚ) (i : ℕ) : ℚ :=
  ((data.drop (i - 50)).take 100).foldl (fun m v => max m |v|) 0

/-- State of the two-state machine inside `noteparse`: the `quiet` flag and
the boundary list `divs` accumulated so far. -/
structure ParseState where
  quiet : Bool
  divs : List ℕ
  deriving DecidableEq, Repr

/-- One iteration of the `noteparse` loop body at sample index `i`. -/
def noteparseStep (data : List ℚ) (s : ParseState) (i : ℕ) : ParseState :=
  if s.quiet then
    if threshup data < sliceAbsMax data i then ⟨false, s.divs ++ [i]⟩ else s
  else
    if sliceAbsMax data i < threshdown data then ⟨true, s.divs ++ [i]⟩ else s

/-- Embedding of `noteparse` from `note_recognition.py`: the loop runs over
`range(50, len(data) - 50)`; `np.max` of an empty buffer raises `ValueError`. -/
def noteparse (data : List ℚ) : Except PyErr (List ℕ) :=
  if data.isEmpty then .error .valueError
  else .ok (((List.range' 50 (data.length - 100)).foldl (noteparseStep data)
      ⟨true, []⟩).divs)

/-- Embedding of `notewindows` from `note_recognition.py`:
`d2 = [0] + divs + [len(data)]` and
`w = [(d2[i] + d2[i+1]) // 2 for i in range(0, len(d2)-1, 2)]`. -/
def notewindows (data : List ℚ) : Except PyErr (List ℕ) :=
  (noteparse data).map fun divs =>
    let d2 := 0 :: (divs ++ [data.length])
    (List.range' 0 (d2.length / 2) 2).map fun i => (d2.getD i 0 + d2.getD (i + 1) 0) / 2

/-- The note segments derived from the window list `w` in
`piano_note_recognition`: note `i` spans `w[i] .. w[i+1]`, so there are
`len(w) - 1` segments. -/
def noteSegments (w : List ℕ) : List (ℕ × ℕ) := w.zip w.tail

/-! ## Feature quantizer (`dtw.py`, `create_chroma_sequence`) -/

/-- Python `int()` applied to a real number: truncation toward zero. -/
def pyInt (q : ℚ) : ℤ := if 0 ≤ q then ⌊q⌋ else ⌈q⌉

/-- The body of the `for onset, chroma_value in zip(...)` loop of
`create_chroma_sequence`: compute `index = int(onset / step_size)`; if
`index < num_steps`, perform the numpy assignment
`chroma_sequence[index] = chroma_value`, which wraps negative indices to
`num_steps + index` and raises `IndexError` when that is still negative. -/
def quantizeStep (numSteps : ℤ) (stepSize : ℚ) (acc : Except PyErr (List ℚ))
    (pair : ℚ × ℚ) : Except PyErr (List ℚ) := do
  let a ← acc
  let index := pyInt (pair.1 / stepSize)
  if index < numSteps then
    let actual := if 0 ≤ index then index else numSteps + index
    if actual < 0 then .error .indexError
    else .ok (a.set actual.toNat pair.2)
  else .ok a

/-- Embedding of `create_chroma_sequence` from `dtw.py`.
`max(onset_times)` of an empty list raises `ValueError`;
`num_steps = int(np.ceil(max_time / step_size)) + 1`; `np.zeros` of a negative
size raises `ValueError`; then the quantization loop runs over the zipped
pairs in order. -/
def create_chroma_sequence (onset_times chroma : List ℚ) (step_size : ℚ) :
    Except PyErr (List ℚ) :=
  match onset_times with
  | [] => .error .valueError
  | t :: ts =>
    let max_time := ts.foldl max t
    let num_steps : ℤ := ⌈max_time / step_size⌉ + 1
    if num_steps < 0 then .error .valueError
    else
      (onset_times.zip chroma).foldl (quantizeStep num_steps step_size)
        (.ok (List.replicate num_steps.toNat 0))

example : create_chroma_sequence [0, 3/10] [5, 7] (1/5) = .ok [5, 7, 0] := by decide

example : helpfindoctave 10 440 0 = .ok 0 := by decide

example : findpitch 10 440 = .ok (10, 0) := by decide

/-! ## The `fastdtw` library (radius 1), as called by `dtw.py`

`compare_onsets_dtw` computes its distance with
`fastdtw(sample_sequence, practice_sequence, dist=lambda x, y: euclidean([x], [y]))`
and `compare_onsets_dtw_weighted` with `fastdtw(..., dist=euclidean)`; on the
scalar sequences produced by `create_chroma_sequence` both distance callables
are the absolute difference.  We embed the pure-Python `fastdtw` package
(radius defaults to 1): its inner `__dtw` fills a cost table over a cell
window (with `D[0,0] = (0, 0, 0)` and all other unvisited cells defaulting to
infinite cost), its `__reduce_by_half` halves a sequence by averaging pairs,
and `__expand_window` grows the coarse path into a fine search window.
-/

/-- Extended cost: `float('inf')` is `⊤`. -/
abbrev Cost := WithTop ℚ

/-- A cell entry of the `__dtw` table: accumulated cost plus the predecessor
cell recorded for backtracking.  Unvisited cells behave as cost `⊤`. -/
structure Entry where
  cost : Cost
  predI : ℕ
  predJ : ℕ
  deriving DecidableEq, Repr

/-- Python's `min(c1, c2, c3, key=first-component)`: the first candidate with
minimal cost wins ties, as in `__dtw`. -/
def min3 (a b c : Entry) : Entry :=
  if a.cost ≤ b.cost ∧ a.cost ≤ c.cost then a
  else if b.cost ≤ c.cost then b
  else c

/-- The scalar local distance used throughout `dtw.py`:
`euclidean([x], [y])` (and `euclidean` on scalars) is `|x - y|`. -/
def localDist (a b : ℚ) : ℚ := |a - b|

/-- One iteration of the `for i, j in window` loop of `__dtw` at the (already
1-shifted) cell `ij`:
`D[i, j] = min((D[i-1, j][0]+dt, i-1, j), (D[i, j-1][0]+dt, i, j-1), (D[i-1, j-1][0]+dt, i-1, j-1))`. -/
def dtwStep (x y : List ℚ) (D : ℕ × ℕ → Entry) (ij : ℕ × ℕ) : ℕ × ℕ → Entry :=
  let i := ij.1
  let j := ij.2
  let dt : Cost := (localDist (x.getD (i - 1) 0) (y.getD (j - 1) 0) : ℚ)
  let e := min3 ⟨(D (i - 1, j)).cost + dt, i - 1, j⟩
      ⟨(D (i, j - 1)).cost + dt, i, j - 1⟩
      ⟨(D (i - 1, j - 1)).cost + dt, i - 1, j - 1⟩
  fun p => if p = ij then e else D p

/-- The initial `__dtw` table: `D[0, 0] = (0, 0, 0)`, everything else the
defaultdict value of infinite cost. -/
def dtwInit : ℕ × ℕ → Entry := fun p => if p = (0, 0) then ⟨(0 : ℚ), 0, 0⟩ else ⟨⊤, 0, 0⟩

/-- The backtracking `while not (i == j == 0)` loop of `__dtw`, which prepends
`(i-1, j-1)` and moves to the recorded predecessor.  The fuel `i + j` is an
upper bound on the number of iterations (every recorded predecessor strictly
decreases `i + j`). -/
def buildPath (D : ℕ × ℕ → Entry) : ℕ → ℕ × ℕ → List (ℕ × ℕ) → List (ℕ × ℕ)
  | 0, _, acc => acc
  | fuel + 1, (i, j), acc =>
    if i = 0 ∧ j = 0 then acc
    else buildPath D fuel ((D (i, j)).predI, (D (i, j)).predJ) ((i - 1, j - 1) :: acc)

/-- The inner `__dtw(x, y, window, dist)` of the fastdtw package: shift the
window by `(1, 1)`, fill the table in window order, read the distance at
`(len(x), len(y))` and backtrack the path. -/
def pydtw (x y : List ℚ) (window : List (ℕ × ℕ)) : Cost × List (ℕ × ℕ) :=
  let window1 := window.map fun ij => (ij.1 + 1, ij.2 + 1)
  let D := window1.foldl (dtwStep x y) dtwInit
  ((D (x.length, y.length)).cost,
    buildPath D (x.length + y.length) (x.length, y.length) [])

/-- The full window `[(i, j) for i in range(len_x) for j in range(len_y)]`
used by `__dtw` when `window is None` (the exact-DTW case). -/
def fullWindow (lenX lenY : ℕ) : List (ℕ × ℕ) :=
  (List.range lenX).flatMap fun i => (List.range lenY).map fun j => (i, j)

/-- Embedding of `__reduce_by_half`: average consecutive pairs, dropping a trailing odd
element. -/
def reduceByHalf : List ℚ → List ℚ
  | a :: b :: rest => (a + b) / 2 :: reduceByHalf rest
  | _ => []

/-- The first half of `__expand_window`: the set `path_`, i.e. the path cells
together with all cells within Chebyshev distance `radius` of a path cell
(coordinates may go negative, hence `ℤ`).  Sets are modelled as lists used
only through membership. -/
def dilate (path : List (ℕ × ℕ)) (radius : ℕ) : List (ℤ × ℤ) :=
  path.map (fun ij => ((ij.1 : ℤ), (ij.2 : ℤ))) ++
    path.flatMap fun ij =>
      (List.range (2 * radius + 1)).flatMap fun a =>
        (List.range (2 * radius + 1)).map fun b =>
          ((ij.1 : ℤ) + a - radius, (ij.2 : ℤ) + b - radius)

/-- The second half of `__expand_window`: the set `window_`, scaling every
cell of `path_` up to the four fine-grid cells it covers. -/
def doubleCells (cells : List (ℤ × ℤ)) : List (ℤ × ℤ) :=
  cells.flatMap fun ij =>
    [(2 * ij.1, 2 * ij.2), (2 * ij.1, 2 * ij.2 + 1),
     (2 * ij.1 + 1, 2 * ij.2), (2 * ij.1 + 1, 2 * ij.2 + 1)]

/-- The inner `for j in range(start_j, len_y)` loop of `__expand_window`'s
final filtering pass, with its `break` semantics and the `new_start_j`
bookkeeping.  Returns the row's `new_start_j` and the extended window. -/
def expandRow (cells : List (ℤ × ℤ)) (i : ℕ) :
    ℕ → ℕ → Option ℕ → List (ℕ × ℕ) → Option ℕ × List (ℕ × ℕ)
  | 0, _, newStart, acc => (newStart, acc)
  | steps + 1, j, newStart, acc =>
    if cells.contains ((i : ℤ), (j : ℤ)) then
      expandRow cells i steps (j + 1)
        (match newStart with | none => some j | some k => some k)
        (acc ++ [(i, j)])
    else
      match newStart with
      | none => expandRow cells i steps (j + 1) none acc
      | some k => (some k, acc)

/-- The outer `for i in range(0, len_x)` loop of `__expand_window`'s filtering
pass.  If a row ends with `new_start_j = None` and another row follows, Python
would call `range(None, len_y)` and raise a `TypeError`. -/
def expandRows (cells : List (ℤ × ℤ)) (lenY : ℕ) :
    List ℕ → ℕ → List (ℕ × ℕ) → Except PyErr (List (ℕ × ℕ))
  | [], _, acc => .ok acc
  | i :: is, startJ, acc =>
    match expandRow cells i (lenY - startJ) startJ none acc with
    | (some s, acc') => expandRows cells lenY is s acc'
    | (none, acc') =>
      match is with
      | [] => .ok acc'
      | _ => .error .typeError

/-- Embedding of `__expand_window(path, len_x, len_y, radius)` of the fastdtw package. -/
def expandWindow (path : List (ℕ × ℕ)) (lenX lenY radius : ℕ) :
    Except PyErr (List (ℕ × ℕ)) :=
  expandRows (doubleCells (dilate path radius)) lenY (List.range lenX) 0 []

/-- Embedding of `__fastdtw(x, y, radius, dist)`: below `min_time_size = radius + 2` run
exact DTW on the full window, otherwise recurse on the half-size sequences
and re-run DTW on the expanded window.  The fuel models Python's recursion
limit; it is exhausted only beyond the actual recursion depth, which is
logarithmic in the input length. -/
def fastdtwAux (radius : ℕ) : ℕ → List ℚ → List ℚ → Except PyErr (Cost × List (ℕ × ℕ))
  | 0, _, _ => .error .recursionError
  | fuel + 1, x, y =>
    if x.length < radius + 2 ∨ y.length < radius + 2 then
      .ok (pydtw x y (fullWindow x.length y.length))
    else do
      let (_, path) ← fastdtwAux radius fuel (reduceByHalf x) (reduceByHalf y)
      let window ← expandWindow path x.length y.length radius
      .ok (pydtw x y window)

/-- Embedding of `fastdtw(x, y)` with the default radius 1 and a scalar absolute-difference
distance: the call made (via a `dist` lambda) by `compare_onsets_dtw` and
`compare_onsets_dtw_weighted`.  `x.length + 2` units of fuel strictly exceed
the recursion depth, since the length halves at every level. -/
def fastdtw (x y : List ℚ) : Except PyErr (Cost × List (ℕ × ℕ)) :=
  fastdtwAux 1 (x.length + 2) x y

/-! ## The DTW comparison entry points of `dtw.py` -/

/-- Embedding of `compare_onsets_dtw` from `dtw.py` (its numeric result: the
DTW distance, paired here with the alignment path that the source uses for
plotting).  Argument order follows the source:
`(sample_onset_times, practice_onset_times, sample_onset_chroma, practice_onset_chroma)`;
`create_chroma_sequence` is called with its default `step_size=0.2`. -/
def compare_onsets_dtw (sample_onset_times practice_onset_times
    sample_onset_chroma practice_onset_chroma : List ℚ) :
    Except PyErr (Cost × List (ℕ × ℕ)) := do
  let sample_sequence ← create_chroma_sequence sample_onset_times sample_onset_chroma 0.2
  let practice_sequence ← create_chroma_sequence practice_onset_times practice_onset_chroma 0.2
  fastdtw sample_sequence practice_sequence

/-- The re-weighted distance loop of `compare_onsets_dtw_weighted`:
`sum over (i, j) in path of dist(ss[i], ps[j]) * (1 + alpha * (sst[i] + pst[j]) / 2)`.
Path indices produced by `fastdtw` are always in bounds, so `getD` with
default 0 agrees with numpy indexing. -/
def weightedPathSum (ss ps sst pst : List ℚ) (alpha : ℚ)
    (path : List (ℕ × ℕ)) : ℚ :=
  path.foldl (fun acc ij =>
    acc + localDist (ss.getD ij.1 0) (ps.getD ij.2 0) *
      (1 + alpha * ((sst.getD ij.1 0 + pst.getD ij.2 0) / 2))) 0

/-- The same sum without the strength weighting: the unweighted distance over
a given alignment path. -/
def unweightedPathSum (ss ps : List ℚ) (path : List (ℕ × ℕ)) : ℚ :=
  path.foldl (fun acc ij =>
    acc + localDist (ss.getD ij.1 0) (ps.getD ij.2 0)) 0

/-- Embedding of `compare_onsets_dtw_weighted` from `dtw.py`: quantize the
chroma and strength sequences, take the alignment path from an unweighted
`fastdtw` run on the chroma sequences, then accumulate the strength-weighted
distance along that path.  Argument order follows the source. -/
def compare_onsets_dtw_weighted (sample_onset_times sample_onset_strength
    sample_onset_chroma practice_onset_times practice_onset_strength
    practice_onset_chroma : List ℚ) (alpha : ℚ) : Except PyErr ℚ := do
  let sample_sequence ← create_chroma_sequence sample_onset_times sample_onset_chroma 0.2
  let practice_sequence ← create_chroma_sequence practice_onset_times practice_onset_chroma 0.2
  let sample_strength_sequence ← create_chroma_sequence sample_onset_times sample_onset_strength 0.2
  let practice_strength_sequence ← create_chroma_sequence practice_onset_times practice_onset_strength 0.2
  let (_, path) ← fastdtw sample_sequence practice_sequence
  .ok (weightedPathSum sample_sequence practice_sequence
    sample_strength_sequence practice_strength_sequence alpha path)

/-! ## The specification's DTW grid

`specDtwCost` follows the spec's words, not the source: cell `(i, j)` is
`localDistance(A[i], B[j]) + min(cost(i-1, j), cost(i, j-1), cost(i-1, j-1))`,
with row and column 0 initialized as prefix sums along the border, and the
total distance is the accumulated cost at the terminal cell.
-/

/-- Modelled from the spec's words (§4.4): row 0 of the classic DTW grid, the
prefix sums of the local distances along the border. -/
def specBorderRow (x y : List ℚ) : ℕ → ℚ
  | 0 => localDist (x.getD 0 0) (y.getD 0 0)
  | j + 1 => specBorderRow x y j + localDist (x.getD 0 0) (y.getD (j + 1) 0)

/-- Modelled from the spec's words (§4.4): row `i` (for `i > 0`) of the classic
DTW grid, given row `i - 1`; column 0 is a prefix sum along the border, and
every other cell is the local distance plus the minimum of the up, left and
diagonal predecessors. -/
def specNextRow (x y : List ℚ) (i : ℕ) (prev : ℕ → ℚ) : ℕ → ℚ
  | 0 => prev 0 + localDist (x.getD i 0) (y.getD 0 0)
  | j + 1 =>
    localDist (x.getD i 0) (y.getD (j + 1) 0) +
      min (prev (j + 1)) (min (specNextRow x y i prev j) (prev j))

/-- Modelled from the spec's words (§4.4): the classic DTW cumulative-cost
grid over two sequences, assembled row by row.  `specDtwCost_succ_succ` below
checks that this definition satisfies the recurrence exactly as the spec
states it. -/
def specDtwCost (x y : List ℚ) : ℕ → ℕ → ℚ
  | 0 => specBorderRow x y
  | i + 1 => specNextRow x y (i + 1) (specDtwCost x y i)

/-- The assembled grid satisfies the spec's recurrence
`cost(i, j) = localDistance(A[i], B[j]) + min(cost(i-1, j), cost(i, j-1), cost(i-1, j-1))`
at every interior cell. -/
theorem specDtwCost_succ_succ (x y : List ℚ) (i j : ℕ) :
    specDtwCost x y (i + 1) (j + 1) =
      localDist (x.getD (i + 1) 0) (y.getD (j + 1) 0) +
        min (specDtwCost x y i (j + 1))
          (min (specDtwCost x y (i + 1) j) (specDtwCost x y i j)) := rfl

/-- The assembled grid satisfies the spec's border prefix sums. -/
theorem specDtwCost_border (x y : List ℚ) (i j : ℕ) :
    specDtwCost x y 0 0 = localDist (x.getD 0 0) (y.getD 0 0) ∧
    specDtwCost x y (i + 1) 0 =
      specDtwCost x y i 0 + localDist (x.getD (i + 1) 0) (y.getD 0 0) ∧
    specDtwCost x y 0 (j + 1) =
      specDtwCost x y 0 j + localDist (x.getD 0 0) (y.getD (j + 1) 0) :=
  ⟨rfl, rfl, rfl⟩

/-- Modelled from the spec's words (§4.4): the total classic-DTW distance, the
accumulated cost at cell `(len(A)-1, len(B)-1)`. -/
def specDtw (x y : List ℚ) : ℚ := specDtwCost x y (x.length - 1) (y.length - 1)

example : fastdtw [2] [3] = .ok ((1 : ℚ), [(0, 0)]) := by decide

set_option maxRecDepth 40000 in
example : specDtw [0, 0, 0, 0, 0, 1] [0, 1, 1, 1, 0, 0] = 2 := by decide

example : fastdtw [0, 0] [0, 0] = .ok ((0 : ℚ), [(0, 0), (0, 1), (1, 1)]) := by decide

/- Heavy concrete fastdtw evaluations appear below as the C2 and C8
counterexample theorems. -/

/-! ## Claim theorems -/

/-- Claim C1 (code_bug evidence).  The spec requires the octave-normalization
loop to be bounded by a fixed iteration ceiling, with `PitchOutOfRange` past
it.  The source `helpfindoctave` has no bound: on input frequency 0 (which
doubling can never bring into the canonical band) it recurses forever — for
every recursion budget `fuel` it exhausts the budget (Python: a
`RecursionError`), and no bounded-iteration error is ever reported. -/
theorem helpfindoctave_unbounded_on_zero :
    ∀ (fuel : ℕ) (o : ℤ), helpfindoctave fuel 0 o = .error .recursionError := by
  intro fuel
  induction fuel with
  | zero => intro o; rfl
  | succ n ih =>
    intro o
    rw [helpfindoctave]
    norm_num
    exact ih (o - 1)

/-- Claim C6 (code_bug evidence).  The classifier's error branch is reachable
for an output of octave normalization: the normalized frequency 508.5675 Hz is
accepted by `helpfindoctave` (returned unchanged, octave 0), yet `findpitch`
raises `ValueError` because `choosepitch`'s last bin ends at 508.567, not
508.5675 — the 12 bins do not cover the band the normalization accepts. -/
theorem classification_gap_after_normalization :
    helpfindoctave 10 508.5675 0 = .ok 0 ∧
    findpitch 10 508.5675 = .error .valueError := by
  constructor <;> decide

/-- Claim C4 (code_bug evidence).  Calling the DTW scorer with an empty onset
list on either side crashes with the `ValueError` raised by
`max(onset_times)` inside `create_chroma_sequence`; no `EmptySequence`-style
descriptive result is produced. -/
theorem dtw_empty_sequence_value_error :
    compare_onsets_dtw [] [0] [] [0] = .error .valueError ∧
    compare_onsets_dtw [0] [] [0] [] = .error .valueError := by
  constructor <;> decide

/-- The maximum absolute amplitude of a buffer, `max(|buffer|)`, as the spec
words the thresholds (0 for an empty buffer). -/
def maxAbsAmplitude : List ℚ → ℚ
  | [] => 0
  | x :: xs => xs.foldl (fun m v => max m |v|) |x|

/-- Claim C3 counterexample: for the buffer `[-1, 0]`, whose largest-magnitude
sample is negative, the source thresholds `0.2 * np.max(data)` and
`0.04 * np.max(data)` are both 0, not 0.2 and 0.04 times the maximum absolute
amplitude (which is 1). -/
theorem thresholds_signed_max_counterexample :
    ¬(threshup [-1, 0] = 0.2 * maxAbsAmplitude [-1, 0] ∧
      threshdown [-1, 0] = 0.04 * maxAbsAmplitude [-1, 0]) := by
  decide

lemma foldl_max_eq_foldl_max_abs (xs : List ℚ) :
    ∀ a : ℚ, 0 ≤ a → (∀ v ∈ xs, 0 ≤ v) →
      xs.foldl max a = xs.foldl (fun m v => max m |v|) a := by
  induction xs with
  | nil => intro a _ _; rfl
  | cons v vs ih =>
    intro a ha hmem
    have hv : 0 ≤ v := hmem v (List.mem_cons_self v vs)
    simp only [List.foldl_cons, abs_of_nonneg hv]
    exact ih (max a v) (le_trans ha (le_max_left a v))
      fun w hw => hmem w (List.mem_cons_of_mem v hw)

lemma npMaxD_eq_maxAbsAmplitude (data : List ℚ) (hnn : ∀ v ∈ data, 0 ≤ v) :
    npMaxD data = maxAbsAmplitude data := by
  cases data with
  | nil => rfl
  | cons x xs =>
    have hx : 0 ≤ x := hnn x (List.mem_cons_self x xs)
    simp only [npMaxD, maxAbsAmplitude, abs_of_nonneg hx]
    exact foldl_max_eq_foldl_max_abs xs x hx
      fun w hw => hnn w (List.mem_cons_of_mem x hw)

/-- Claim C3 amended: the source thresholds are `0.2`/`0.04` times the signed
maximum `np.max(data)`; they equal `0.2`/`0.04` times the maximum absolute
amplitude whenever the buffer contains no negative sample of dominating
magnitude — in particular for every buffer of non-negative samples. -/
theorem thresholds_relative_to_abs_max_on_nonneg_buffers
    (data : List ℚ) (hnn : ∀ v ∈ data, 0 ≤ v) :
    threshup data = 0.2 * maxAbsAmplitude data ∧
    threshdown data = 0.04 * maxAbsAmplitude data := by
  rw [threshup, threshdown, npMaxD_eq_maxAbsAmplitude data hnn]
  exact ⟨rfl, rfl⟩

/-- Witness for `thresholds_relative_to_abs_max_on_nonneg_buffers` at the
concrete buffer `[1, 2]`. -/
theorem thresholds_witness :
    threshup [1, 2] = 0.2 * maxAbsAmplitude [1, 2] ∧
    threshdown [1, 2] = 0.04 * maxAbsAmplitude [1, 2] :=
  thresholds_relative_to_abs_max_on_nonneg_buffers [1, 2] (by decide)

/-- Claim C10 counterexample: an onset time whose negative bucket index wraps
below `-num_steps` is not merely redirected to the end of the array — the
numpy assignment raises `IndexError`.  Here `max(onset_times) = 0` gives a
one-bucket array, and the onset `-10` yields index `-50`, which passes the
`index < num_steps` check but crashes. -/
theorem quantizer_negative_onset_crash :
    create_chroma_sequence [0, -10] [5, 7] (1/5) = .error .indexError := by
  decide

/-- Claim C10 amended: with a positive step and at least one bucket, the
quantizer accepts negative onset times; an onset in `(-step, 0)` truncates to
bucket 0, an onset with `-num_steps ≤ int(t/step) ≤ -1` passes the range
check and overwrites bucket `num_steps + index` at the end of the array via
Python negative indexing, and an onset with `int(t/step) < -num_steps`
raises `IndexError` rather than being dropped. -/
theorem quantizer_negative_onset_behavior (numSteps : ℤ) (step t v : ℚ)
    (a : List ℚ) (hstep : 0 < step) (hpos : 1 ≤ numSteps) :
    (-step < t → t < 0 →
      quantizeStep numSteps step (.ok a) (t, v) = .ok (a.set 0 v)) ∧
    (t ≤ -step → -numSteps ≤ pyInt (t / step) →
      quantizeStep numSteps step (.ok a) (t, v) =
        .ok (a.set (numSteps + pyInt (t / step)).toNat v)) ∧
    (pyInt (t / step) < -numSteps →
      quantizeStep numSteps step (.ok a) (t, v) = .error .indexError) := by
  have hne := ne_of_gt hstep
  refine ⟨?_, ?_, ?_⟩
  · intro h1 h2
    have hts : t / step < 0 := div_neg_of_neg_of_pos h2 hstep
    have hidx : pyInt (t / step) = 0 := by
      have h1' : (-1 : ℚ) < t / step := by
        have hq : -step / step < t / step := by gcongr
        rwa [neg_div, div_self hne] at hq
      have hc0 : ⌈t / step⌉ ≤ 0 := Int.ceil_le.mpr (by exact_mod_cast le_of_lt hts)
      have hc1 : (-1 : ℤ) < ⌈t / step⌉ := Int.lt_ceil.mpr (by exact_mod_cast h1')
      simp only [pyInt, if_neg (not_le.mpr hts)]
      omega
    simp only [quantizeStep, bind, Except.bind, hidx]
    rw [if_pos (by omega : (0 : ℤ) < numSteps)]
    norm_num
  · intro h1 h2
    have hts : t / step ≤ -1 := by
      have hq : t / step ≤ -step / step := by gcongr
      rwa [neg_div, div_self hne] at hq
    have hc : pyInt (t / step) ≤ -1 := by
      have hts0 : t / step < 0 := lt_of_le_of_lt hts (by norm_num)
      have : ⌈t / step⌉ ≤ -1 := Int.ceil_le.mpr (by exact_mod_cast hts)
      simp only [pyInt, if_neg (not_le.mpr hts0)]
      exact this
    simp only [quantizeStep, bind, Except.bind]
    rw [if_pos (by omega : pyInt (t / step) < numSteps)]
    rw [if_neg (by omega : ¬(0 : ℤ) ≤ pyInt (t / step)),
      if_neg (by omega : ¬numSteps + pyInt (t / step) < 0)]
  · intro h1
    simp only [quantizeStep, bind, Except.bind]
    rw [if_pos (by omega : pyInt (t / step) < numSteps)]
    rw [if_neg (by omega : ¬(0 : ℤ) ≤ pyInt (t / step)),
      if_pos (by omega : numSteps + pyInt (t / step) < 0)]

/-- Witness for `quantizer_negative_onset_behavior`: with one bucket and step
0.2, the onset `-0.1` truncates into bucket 0. -/
theorem quantizer_negative_onset_witness :
    quantizeStep 1 (1/5) (.ok [0]) (-1/10, 3) = .ok [3] := by
  have h := (quantizer_negative_onset_behavior 1 (1/5) (-1/10) 3 [0]
    (by norm_num) (by norm_num)).1 (by norm_num) (by norm_num)
  simpa using h

lemma noteparse_fold_quiet (data : List ℚ) (l : List ℕ)
    (h : ∀ i ∈ l, sliceAbsMax data i ≤ threshup data) :
    l.foldl (noteparseStep data) ⟨true, []⟩ = ⟨true, []⟩ := by
  induction l with
  | nil => rfl
  | cons i is ih =>
    have hi := h i (List.mem_cons_self i is)
    have hstep : noteparseStep data ⟨true, []⟩ i = ⟨true, []⟩ := by
      simp [noteparseStep, not_lt.mpr hi]
    rw [List.foldl_cons, hstep]
    exact ih fun j hj => h j (List.mem_cons_of_mem i hj)

/-- Claim C9 (confirmed).  For a buffer whose local-amplitude envelope never
exceeds the enter threshold at any evaluated index, `noteparse` returns the
empty boundary list as a normal (non-error) result, and the derived segment
list is empty: `notewindows` yields the single midpoint `len/2`, hence zero
segments. -/
theorem silent_buffer_yields_no_segments (data : List ℚ) (hne : data ≠ [])
    (hquiet : ∀ i, 50 ≤ i → i + 50 < data.length →
      sliceAbsMax data i ≤ threshup data) :
    noteparse data = .ok [] ∧
    (notewindows data).map noteSegments = .ok [] := by
  have hparse : noteparse data = .ok [] := by
    rw [noteparse, if_neg (by simpa [List.isEmpty_iff] using hne)]
    rw [noteparse_fold_quiet data _ ?_]
    · intro i hi
      rw [List.mem_range'_1] at hi
      exact hquiet i hi.1 (by omega)
  refine ⟨hparse, ?_⟩
  rw [notewindows, hparse]
  simp [Except.map, noteSegments, List.range', List.zip]

/-- Witness for `silent_buffer_yields_no_segments`: a three-sample buffer has
no evaluable index at all, so the hypothesis holds vacuously and no segments
are produced. -/
theorem silent_buffer_witness :
    noteparse [1, 2, 3] = .ok [] ∧
    (notewindows [1, 2, 3]).map noteSegments = .ok [] :=
  silent_buffer_yields_no_segments [1, 2, 3] (by decide)
    (fun i h1 h2 => absurd h2 (by simp only [List.length_cons, List.length_nil]; omega))

lemma getD_nonneg (l : List ℚ) (k : ℕ) (h : ∀ v ∈ l, 0 ≤ v) :
    0 ≤ l.getD k 0 := by
  by_cases hk : k < l.length
  · rw [List.getD_eq_getElem l 0 hk]
    exact h _ (List.getElem_mem hk)
  · rw [List.getD_eq_default l 0 (le_of_not_lt hk)]

lemma pathSum_le (ss ps sst pst : List ℚ) (alpha : ℚ) (halpha : 0 ≤ alpha)
    (h1 : ∀ v ∈ sst, 0 ≤ v) (h2 : ∀ v ∈ pst, 0 ≤ v) :
    ∀ (path : List (ℕ × ℕ)) (acc1 acc2 : ℚ), acc1 ≤ acc2 →
      path.foldl (fun acc ij => acc + localDist (ss.getD ij.1 0) (ps.getD ij.2 0)) acc1 ≤
      path.foldl (fun acc ij =>
        acc + localDist (ss.getD ij.1 0) (ps.getD ij.2 0) *
          (1 + alpha * ((sst.getD ij.1 0 + pst.getD ij.2 0) / 2))) acc2 := by
  intro path
  induction path with
  | nil => intro acc1 acc2 hacc; simpa using hacc
  | cons ij rest ih =>
    intro acc1 acc2 hacc
    simp only [List.foldl_cons]
    apply ih
    have hd : 0 ≤ localDist (ss.getD ij.1 0) (ps.getD ij.2 0) := abs_nonneg _
    have havg : 0 ≤ (sst.getD ij.1 0 + pst.getD ij.2 0) / 2 :=
      div_nonneg (add_nonneg (getD_nonneg _ _ h1) (getD_nonneg _ _ h2)) (by norm_num)
    have hfac : (1 : ℚ) ≤ 1 + alpha * ((sst.getD ij.1 0 + pst.getD ij.2 0) / 2) := by
      nlinarith
    calc acc1 + localDist (ss.getD ij.1 0) (ps.getD ij.2 0)
        ≤ acc2 + localDist (ss.getD ij.1 0) (ps.getD ij.2 0) * 1 := by
          rw [mul_one]; exact add_le_add hacc (le_refl _)
      _ ≤ acc2 + localDist (ss.getD ij.1 0) (ps.getD ij.2 0) *
            (1 + alpha * ((sst.getD ij.1 0 + pst.getD ij.2 0) / 2)) := by
          exact add_le_add (le_refl _) (mul_le_mul_of_nonneg_left hfac hd)

/-- Claim C7 (confirmed).  For `alpha > 0` and recordings whose quantized
strength sequences are non-negative, with at least one non-zero strength value
touched by the alignment path, `compare_onsets_dtw_weighted` returns the
strength-weighted sum over the path computed by the unweighted `fastdtw` run,
and that weighted distance is at least the unweighted distance (the sum of the
local distances over the same path). -/
theorem weighted_ge_unweighted (sT sS sC pT pS pC : List ℚ) (alpha : ℚ)
    (d : Cost) (ss ps sst pst : List ℚ) (path : List (ℕ × ℕ))
    (hss : create_chroma_sequence sT sC 0.2 = .ok ss)
    (hps : create_chroma_sequence pT pC 0.2 = .ok ps)
    (hsst : create_chroma_sequence sT sS 0.2 = .ok sst)
    (hpst : create_chroma_sequence pT pS 0.2 = .ok pst)
    (hpath : fastdtw ss ps = .ok (d, path))
    (halpha : 0 < alpha)
    (h1 : ∀ v ∈ sst, 0 ≤ v) (h2 : ∀ v ∈ pst, 0 ≤ v)
    (hnz : ∃ ij ∈ path, sst.getD ij.1 0 ≠ 0 ∨ pst.getD ij.2 0 ≠ 0) :
    compare_onsets_dtw_weighted sT sS sC pT pS pC alpha =
      .ok (weightedPathSum ss ps sst pst alpha path) ∧
    unweightedPathSum ss ps path ≤ weightedPathSum ss ps sst pst alpha path := by
  constructor
  · rw [compare_onsets_dtw_weighted]
    rw [hss, hps, hsst, hpst]
    simp only [bind, Except.bind, hpath]
  · exact pathSum_le ss ps sst pst alpha (le_of_lt halpha) h1 h2 path 0 0 (le_refl 0)

/-- Witness for `weighted_ge_unweighted`: one-onset recordings with strength
1, chroma 2 vs 3, `alpha = 1`; the weighted distance is 2, the unweighted 1. -/
theorem weighted_ge_unweighted_witness :
    compare_onsets_dtw_weighted [0] [1] [2] [0] [1] [3] 1 =
      .ok (weightedPathSum [2] [3] [1] [1] 1 [(0, 0)]) ∧
    unweightedPathSum [2] [3] [(0, 0)] ≤ weightedPathSum [2] [3] [1] [1] 1 [(0, 0)] :=
  weighted_ge_unweighted [0] [1] [2] [0] [1] [3] 1 ((1 : ℚ) : Cost)
    [2] [3] [1] [1] [(0, 0)]
    (by decide) (by decide) (by decide) (by decide) (by decide)
    (by norm_num) (by decide) (by decide)
    ⟨(0, 0), by decide⟩

lemma foldl_max_init_le (l : List ℚ) : ∀ a : ℚ, a ≤ l.foldl max a := by
  induction l with
  | nil => intro a; exact le_refl a
  | cons b bs ih =>
    intro a
    rw [List.foldl_cons]
    exact le_trans (le_max_left a b) (ih (max a b))

lemma le_foldl_max (l : List ℚ) : ∀ (a v : ℚ), v ∈ l → v ≤ l.foldl max a := by
  induction l with
  | nil => intro a v hv; cases hv
  | cons b bs ih =>
    intro a v hv
    rw [List.foldl_cons]
    rcases List.mem_cons.mp hv with h | h
    · subst h
      exact le_trans (le_max_right a v) (foldl_max_init_le bs (max a v))
    · exact ih (max a b) v h

lemma getD_replicate_zero (n k : ℕ) : (List.replicate n (0 : ℚ)).getD k 0 = 0 := by
  by_cases hk : k < n
  · rw [List.getD_eq_getElem _ 0 (by simpa using hk), List.getElem_replicate]
  · rw [List.getD_eq_default _ 0 (by simpa using le_of_not_lt hk)]

lemma getD_set_self (a : List ℚ) (i : ℕ) (v : ℚ) (h : i < a.length) :
    (a.set i v).getD i 0 = v := by
  rw [List.getD_eq_getElem?_getD, List.getElem?_set_self h]
  rfl

lemma getD_set_other (a : List ℚ) (i k : ℕ) (v : ℚ) (h : i ≠ k) :
    (a.set i v).getD k 0 = a.getD k 0 := by
  rw [List.getD_eq_getElem?_getD, List.getElem?_set_ne h, ← List.getD_eq_getElem?_getD]

lemma cons_getLast_getD (p : ℚ × ℚ) (T : List (ℚ × ℚ)) (d1 d2 : ℚ)
    (h : d1 = p.2) :
    (Option.map Prod.snd T.getLast?).getD d1 =
      (Option.map Prod.snd ((p :: T)).getLast?).getD d2 := by
  cases T with
  | nil => simpa using h
  | cons q qs =>
    rw [List.getLast?_cons_cons]
    obtain ⟨w, hw⟩ := Option.isSome_iff_exists.mp
      (List.getLast?_isSome.mpr (List.cons_ne_nil q qs))
    rw [hw]
    rfl

lemma quantize_fold_char (numSteps : ℤ) (step : ℚ) (pairs : List (ℚ × ℚ))
    (hidx : ∀ p ∈ pairs, 0 ≤ pyInt (p.1 / step) ∧ pyInt (p.1 / step) < numSteps) :
    ∀ a : List ℚ, a.length = numSteps.toNat →
      ∃ arr, pairs.foldl (quantizeStep numSteps step) (.ok a) = .ok arr ∧
        arr.length = a.length ∧
        ∀ k : ℕ, arr.getD k 0 =
          ((((pairs.filter fun p => pyInt (p.1 / step) = (k : ℤ)).getLast?).map
            Prod.snd).getD (a.getD k 0)) := by
  induction pairs with
  | nil =>
    intro a _
    exact ⟨a, rfl, rfl, fun k => by simp [List.filter_nil]⟩
  | cons p ps ih =>
    intro a ha
    obtain ⟨hp0, hps⟩ := hidx p (List.mem_cons_self p ps)
    have hlen : (pyInt (p.1 / step)).toNat < a.length := by
      rw [ha]; omega
    have hstep1 : quantizeStep numSteps step (.ok a) p =
        .ok (a.set (pyInt (p.1 / step)).toNat p.2) := by
      simp only [quantizeStep, bind, Except.bind]
      rw [if_pos hps, if_pos hp0, if_neg (by omega : ¬pyInt (p.1 / step) < 0)]
    set a' := a.set (pyInt (p.1 / step)).toNat p.2 with ha'
    have ha'len : a'.length = numSteps.toNat := by
      rw [ha', List.length_set, ha]
    obtain ⟨arr, harr, hlen', hchar⟩ :=
      ih (fun q hq => hidx q (List.mem_cons_of_mem p hq)) a' ha'len
    refine ⟨arr, ?_, ?_, ?_⟩
    · rw [List.foldl_cons, hstep1, harr]
    · rw [hlen', ha', List.length_set]
    · intro k
      rw [hchar k, List.filter_cons]
      by_cases hpk : pyInt (p.1 / step) = (k : ℤ)
      · rw [if_pos (by simpa using hpk)]
        have hk : (pyInt (p.1 / step)).toNat = k := by omega
        have hset : a'.getD k 0 = p.2 := by
          rw [ha', ← hk]
          exact getD_set_self a _ p.2 hlen
        exact cons_getLast_getD p _ _ _ hset
      · rw [if_neg (by simpa using hpk)]
        have hk : (pyInt (p.1 / step)).toNat ≠ k := by omega
        rw [ha', getD_set_other a _ k p.2 hk]

/-- The value the spec assigns to bucket `k`: the value of the last
`(onset_time, value)` pair with `floor(onset_time / step) = k`, if any. -/
def lastBucketValue (step : ℚ) (pairs : List (ℚ × ℚ)) (k : ℤ) : Option ℚ :=
  ((pairs.filter fun p => ⌊p.1 / step⌋ = k).getLast?).map Prod.snd

/-- Claim C5 (confirmed).  For a non-empty list of non-negative onset times
with paired values and a positive step, the quantizer succeeds and returns an
array of length `ceil(max(onsetTimes)/step) + 1` in which bucket `k` holds the
value of the last pair whose `floor(onset_time/step)` equals `k`, and every
bucket hit by no pair holds 0. -/
theorem quantizer_characterization (onsets chroma : List ℚ) (step : ℚ)
    (hne : onsets ≠ []) (hstep : 0 < step) (hnn : ∀ t ∈ onsets, 0 ≤ t) :
    ∃ arr, create_chroma_sequence onsets chroma step = .ok arr ∧
      arr.length = (⌈npMaxD onsets / step⌉ + 1).toNat ∧
      ∀ k : ℕ, k < arr.length →
        arr.getD k 0 = (lastBucketValue step (onsets.zip chroma) k).getD 0 := by
  obtain ⟨t, ts, rfl⟩ : ∃ t ts, onsets = t :: ts := by
    cases onsets with
    | nil => exact absurd rfl hne
    | cons t ts => exact ⟨t, ts, rfl⟩
  have hmax0 : 0 ≤ ts.foldl max t :=
    le_trans (hnn t (List.mem_cons_self t ts)) (foldl_max_init_le ts t)
  have hceil0 : 0 ≤ ⌈ts.foldl max t / step⌉ :=
    Int.ceil_nonneg (div_nonneg hmax0 (le_of_lt hstep))
  have hpy : ∀ p ∈ (t :: ts).zip chroma,
      pyInt (p.1 / step) = ⌊p.1 / step⌋ ∧ 0 ≤ ⌊p.1 / step⌋ ∧
        ⌊p.1 / step⌋ < ⌈ts.foldl max t / step⌉ + 1 := by
    intro p hp
    have hmem : p.1 ∈ t :: ts := (List.of_mem_zip hp).1
    have h0 : 0 ≤ p.1 := hnn p.1 hmem
    have hq0 : 0 ≤ p.1 / step := div_nonneg h0 (le_of_lt hstep)
    refine ⟨by simp [pyInt, if_pos hq0], Int.floor_nonneg.mpr hq0, ?_⟩
    have hle : p.1 ≤ ts.foldl max t := by
      rcases List.mem_cons.mp hmem with h | h
      · exact h ▸ foldl_max_init_le ts t
      · exact le_foldl_max ts t p.1 h
    have hdiv : p.1 / step ≤ ts.foldl max t / step := by gcongr
    calc ⌊p.1 / step⌋ ≤ ⌊ts.foldl max t / step⌋ := Int.floor_le_floor hdiv
      _ ≤ ⌈ts.foldl max t / step⌉ := Int.floor_le_ceil _
      _ < ⌈ts.foldl max t / step⌉ + 1 := by omega
  obtain ⟨arr, harr, hlen, hchar⟩ :=
    quantize_fold_char (⌈ts.foldl max t / step⌉ + 1) step ((t :: ts).zip chroma)
      (fun p hp => ⟨by rw [(hpy p hp).1]; exact (hpy p hp).2.1,
        by rw [(hpy p hp).1]; exact (hpy p hp).2.2⟩)
      (List.replicate (⌈ts.foldl max t / step⌉ + 1).toNat 0)
      (List.length_replicate _ _)
  refine ⟨arr, ?_, ?_, ?_⟩
  · show create_chroma_sequence (t :: ts) chroma step = .ok arr
    rw [create_chroma_sequence]
    rw [if_neg (by omega : ¬⌈ts.foldl max t / step⌉ + 1 < 0)]
    exact harr
  · rw [hlen, List.length_replicate]
    rfl
  · intro k _
    rw [hchar k, getD_replicate_zero, lastBucketValue]
    have hfilter : ((t :: ts).zip chroma).filter
        (fun p => pyInt (p.1 / step) = (k : ℤ)) =
        ((t :: ts).zip chroma).filter (fun p => ⌊p.1 / step⌋ = (k : ℤ)) :=
      List.filter_congr fun p hp => by rw [(hpy p hp).1]
    rw [hfilter]

/-- Witness for `quantizer_characterization` at onsets `[0, 0.3]` with values
`[5, 7]` and step `0.2`. -/
theorem quantizer_characterization_witness :
    ∃ arr, create_chroma_sequence [0, 3/10] [5, 7] (1/5) = .ok arr ∧
      arr.length = (⌈npMaxD [0, 3/10] / (1/5)⌉ + 1).toNat ∧
      ∀ k : ℕ, k < arr.length →
        arr.getD k 0 = (lastBucketValue (1/5) ([0, 3/10].zip [5, 7]) k).getD 0 :=
  quantizer_characterization [0, 3/10] [5, 7] (1/5) (by decide) (by norm_num)
    (by decide)

/-! ## Equivalence of the exact-DTW core with the spec grid

When either input is shorter than `min_time_size = 3`, `fastdtw` runs `__dtw`
on the full window; the following development shows that this table-filling
loop computes exactly the spec's cumulative-cost grid.  `cellsBefore m r c`
is the row-major prefix of the full window holding all cells of rows `< r`
plus the first `c` cells of row `r`; `Dp` is the table after folding over that
prefix, and `gridCost` the costs the invariant predicts for it.
-/

def cellsBefore (m r c : ℕ) : List (ℕ × ℕ) :=
  ((List.range r).flatMap fun i => (List.range m).map fun j => (i, j)) ++
    (List.range c).map fun j => (r, j)

def Dp (x y : List ℚ) (m r c : ℕ) : ℕ × ℕ → Entry :=
  ((cellsBefore m r c).map fun ij => (ij.1 + 1, ij.2 + 1)).foldl (dtwStep x y) dtwInit

def gridCost (x y : List ℚ) (m r c : ℕ) : ℕ × ℕ → Cost := fun p =>
  match p with
  | (0, 0) => ((0 : ℚ) : Cost)
  | (i + 1, j + 1) =>
    if (i < r ∧ j < m) ∨ (i = r ∧ j < c) then ((specDtwCost x y i j : ℚ) : Cost)
    else ⊤
  | _ => ⊤

lemma min3_cost (a b c : Entry) :
    (min3 a b c).cost = min a.cost (min b.cost c.cost) := by
  unfold min3
  split_ifs with h1 h2
  · exact (min_eq_left (le_min h1.1 h1.2)).symm
  · push_neg at h1
    rw [min_eq_left h2]
    rcases le_or_lt a.cost b.cost with hab | hab
    · exact (min_eq_right (le_trans h2 (le_of_lt (h1 hab)))).symm
    · exact (min_eq_right (le_of_lt hab)).symm
  · push_neg at h1 h2
    rw [min_eq_right (le_of_lt h2)]
    rcases le_or_lt a.cost b.cost with hab | hab
    · exact (min_eq_right (le_of_lt (h1 hab))).symm
    · exact (min_eq_right (le_of_lt (lt_trans h2 hab))).symm

lemma cellsBefore_succ_c (m r c : ℕ) :
    cellsBefore m r (c + 1) = cellsBefore m r c ++ [(r, c)] := by
  simp [cellsBefore, List.range_succ]

lemma cellsBefore_row_end (m r : ℕ) :
    cellsBefore m (r + 1) 0 = cellsBefore m r m := by
  simp [cellsBefore, List.range_succ]

lemma Dp_succ_c (x y : List ℚ) (m r c : ℕ) :
    Dp x y m r (c + 1) = dtwStep x y (Dp x y m r c) (r + 1, c + 1) := by
  rw [Dp, Dp, cellsBefore_succ_c, List.map_append, List.foldl_append]
  rfl

lemma Dp_row_end (x y : List ℚ) (m r : ℕ) :
    Dp x y m (r + 1) 0 = Dp x y m r m := by
  rw [Dp, Dp, cellsBefore_row_end]

lemma min3_add (s1 s2 s3 d : ℚ) :
    min (s1 + d) (min (s2 + d) (s3 + d)) = d + min s1 (min s2 s3) := by
  simp only [min_def]
  split_ifs <;> linarith

lemma dtwStep_at_cost (x y : List ℚ) (D : ℕ × ℕ → Entry) (i j : ℕ) :
    (dtwStep x y D (i + 1, j + 1) (i + 1, j + 1)).cost =
      min ((D (i, j + 1)).cost + ((localDist (x.getD i 0) (y.getD j 0) : ℚ) : Cost))
        (min ((D (i + 1, j)).cost + ((localDist (x.getD i 0) (y.getD j 0) : ℚ) : Cost))
          ((D (i, j)).cost + ((localDist (x.getD i 0) (y.getD j 0) : ℚ) : Cost))) := by
  simp only [dtwStep, eq_self_iff_true, if_true, Nat.add_sub_cancel]
  rw [min3_cost]

lemma dtwStep_at_other (x y : List ℚ) (D : ℕ × ℕ → Entry) (ij p : ℕ × ℕ)
    (hp : p ≠ ij) : dtwStep x y D ij p = D p := by
  simp only [dtwStep]
  rw [if_neg hp]

lemma Dp_inv_base (x y : List ℚ) (m : ℕ) :
    ∀ p, (Dp x y m 0 0 p).cost = gridCost x y m 0 0 p := by
  intro p
  have hD : Dp x y m 0 0 = dtwInit := rfl
  rw [hD]
  rcases p with ⟨i, j⟩
  rcases i with _ | i <;> rcases j with _ | j
  · rfl
  · simp [dtwInit, gridCost]
  · simp [dtwInit, gridCost]
  · simp [dtwInit, gridCost]

lemma Dp_inv_cross (x y : List ℚ) (m r : ℕ)
    (h : ∀ p, (Dp x y m r m p).cost = gridCost x y m r m p) :
    ∀ p, (Dp x y m (r + 1) 0 p).cost = gridCost x y m (r + 1) 0 p := by
  intro p
  rw [Dp_row_end, h p]
  rcases p with ⟨i, j⟩
  rcases i with _ | i <;> rcases j with _ | j
  · rfl
  · rfl
  · rfl
  · simp only [gridCost]
    have hiff : ((i < r ∧ j < m) ∨ (i = r ∧ j < m)) ↔
        ((i < r + 1 ∧ j < m) ∨ (i = r + 1 ∧ j < 0)) := by omega
    simp only [hiff]

lemma Dp_inv_step (x y : List ℚ) (m r c : ℕ) (hm : 0 < m) (hc : c < m)
    (h : ∀ p, (Dp x y m r c p).cost = gridCost x y m r c p) :
    ∀ p, (Dp x y m r (c + 1) p).cost = gridCost x y m r (c + 1) p := by
  intro p
  rw [Dp_succ_c]
  by_cases hp : p = (r + 1, c + 1)
  · subst hp
    rw [dtwStep_at_cost, h (r, c + 1), h (r + 1, c), h (r, c)]
    have hgoal : gridCost x y m r (c + 1) (r + 1, c + 1) =
        ((specDtwCost x y r c : ℚ) : Cost) := by
      simp only [gridCost]
      rw [if_pos (Or.inr ⟨trivial, by omega⟩)]
    rw [hgoal]
    rcases r with _ | r' <;> rcases c with _ | c'
    · simp only [gridCost, WithTop.top_add]
      rw [min_eq_right le_top, min_eq_right le_top, ← WithTop.coe_add, zero_add]
      rfl
    · simp only [gridCost, WithTop.top_add]
      rw [if_pos (Or.inr ⟨trivial, Nat.lt_succ_self c'⟩)]
      rw [min_eq_right le_top, min_eq_left le_top, ← WithTop.coe_add]
      rfl
    · simp only [gridCost, WithTop.top_add]
      rw [if_pos (Or.inl ⟨Nat.lt_succ_self r', hm⟩)]
      rw [min_eq_right le_top, min_eq_left le_top, ← WithTop.coe_add]
      rfl
    · simp only [gridCost]
      rw [if_pos (Or.inl ⟨Nat.lt_succ_self r', hc⟩),
        if_pos (Or.inr ⟨trivial, Nat.lt_succ_self c'⟩),
        if_pos (Or.inl ⟨Nat.lt_succ_self r', by omega⟩)]
      rw [← WithTop.coe_add, ← WithTop.coe_add, ← WithTop.coe_add,
        ← WithTop.coe_min, ← WithTop.coe_min, WithTop.coe_eq_coe]
      rw [min3_add, specDtwCost_succ_succ]
  · rw [dtwStep_at_other x y _ _ p hp, h p]
    rcases p with ⟨i, j⟩
    rcases i with _ | i <;> rcases j with _ | j
    · rfl
    · rfl
    · rfl
    · simp only [gridCost]
      have hne2 : ¬(i = r ∧ j = c) := fun hh => hp (by rw [hh.1, hh.2])
      have hiff : ((i < r ∧ j < m) ∨ (i = r ∧ j < c)) ↔
          ((i < r ∧ j < m) ∨ (i = r ∧ j < c + 1)) := by omega
      simp only [hiff]

lemma Dp_inv (x y : List ℚ) (m : ℕ) (hm : 0 < m) :
    ∀ r c, c ≤ m → ∀ p, (Dp x y m r c p).cost = gridCost x y m r c p := by
  have hrow : ∀ r, (∀ p, (Dp x y m r 0 p).cost = gridCost x y m r 0 p) →
      ∀ c, c ≤ m → ∀ p, (Dp x y m r c p).cost = gridCost x y m r c p := by
    intro r h0 c
    induction c with
    | zero => intro _; exact h0
    | succ c ih =>
      intro hc
      exact Dp_inv_step x y m r c hm (by omega) (ih (by omega))
  have hzero : ∀ r, ∀ p, (Dp x y m r 0 p).cost = gridCost x y m r 0 p := by
    intro r
    induction r with
    | zero => exact Dp_inv_base x y m
    | succ r ih => exact Dp_inv_cross x y m r (hrow r ih m le_rfl)
  intro r c hc
  exact hrow r (hzero r) c hc

lemma fullWindow_eq_cellsBefore (n m : ℕ) :
    fullWindow n m = cellsBefore m n 0 := by
  simp [fullWindow, cellsBefore]

/-- The exact-DTW branch of `fastdtw` (full window) computes exactly the
spec's cumulative grid cost at the terminal cell. -/
lemma pydtw_full_eq_spec (x y : List ℚ) (hx : x ≠ []) (hy : y ≠ []) :
    (pydtw x y (fullWindow x.length y.length)).1 = ((specDtw x y : ℚ) : Cost) := by
  have hm : 0 < y.length := List.length_pos.mpr hy
  obtain ⟨n', hn'⟩ : ∃ n', x.length = n' + 1 :=
    ⟨x.length - 1, by have := List.length_pos.mpr hx; omega⟩
  obtain ⟨m', hm'⟩ : ∃ m', y.length = m' + 1 := ⟨y.length - 1, by omega⟩
  have hDp : (pydtw x y (fullWindow x.length y.length)).1 =
      (Dp x y y.length x.length 0 (x.length, y.length)).cost := by
    rw [pydtw, Dp, fullWindow_eq_cellsBefore]
  rw [hDp, Dp_inv x y y.length hm x.length 0 (Nat.zero_le _) (x.length, y.length)]
  rw [hn', hm']
  simp only [gridCost]
  rw [if_pos (Or.inl ⟨Nat.lt_succ_self n', Nat.lt_succ_self m'⟩)]
  rw [specDtw, hn', hm']
  rfl

/-- When either sequence is shorter than `min_time_size = 3`, `fastdtw` runs
exact DTW on the full window, so its distance is the spec's grid cost. -/
lemma fastdtw_small (x y : List ℚ) (hx : x ≠ []) (hy : y ≠ [])
    (hsmall : x.length < 3 ∨ y.length < 3) :
    fastdtw x y = .ok (((specDtw x y : ℚ) : Cost),
      (pydtw x y (fullWindow x.length y.length)).2) := by
  rw [fastdtw]
  rw [show x.length + 2 = (x.length + 1) + 1 from rfl]
  rw [fastdtwAux]
  rw [if_pos hsmall]
  rw [← pydtw_full_eq_spec x y hx hy]

example : fastdtw [5] [7, 9] = .ok (((specDtw [5] [7, 9] : ℚ) : Cost),
    (pydtw [5] [7, 9] (fullWindow 1 2)).2) :=
  fastdtw_small [5] [7, 9] (by decide) (by decide) (by decide)

lemma specBorderRow_nonneg (x y : List ℚ) : ∀ j, 0 ≤ specBorderRow x y j := by
  intro j
  induction j with
  | zero => exact abs_nonneg _
  | succ j ih => exact add_nonneg ih (abs_nonneg _)

lemma specNextRow_nonneg (x y : List ℚ) (i : ℕ) (prev : ℕ → ℚ)
    (hprev : ∀ j, 0 ≤ prev j) : ∀ j, 0 ≤ specNextRow x y i prev j := by
  intro j
  induction j with
  | zero => exact add_nonneg (hprev 0) (abs_nonneg _)
  | succ j ih =>
    exact add_nonneg (abs_nonneg _)
      (le_min (hprev (j + 1)) (le_min ih (hprev j)))

lemma specDtwCost_nonneg (x y : List ℚ) : ∀ i j, 0 ≤ specDtwCost x y i j := by
  intro i
  induction i with
  | zero => exact specBorderRow_nonneg x y
  | succ i ih => exact specNextRow_nonneg x y (i + 1) _ ih

lemma specDtwCost_self_diag (S : List ℚ) : ∀ i, specDtwCost S S i i = 0 := by
  intro i
  induction i with
  | zero =>
    show |S.getD 0 0 - S.getD 0 0| = 0
    simp
  | succ i ih =>
    rw [specDtwCost_succ_succ, ih,
      min_eq_right (specDtwCost_nonneg S S (i + 1) i),
      min_eq_right (specDtwCost_nonneg S S i (i + 1))]
    simp [localDist]

/-- The spec grid assigns distance 0 to the comparison of a sequence with
itself (the diagonal is a zero-cost path). -/
lemma specDtw_self_zero (S : List ℚ) : specDtw S S = 0 := by
  rw [specDtw]
  exact specDtwCost_self_diag S (S.length - 1)

/-- Claim C2 amended (corrected).  The source delegates alignment to the
`fastdtw` library (radius 1), which is an approximation of classic DTW.  The
returned distance equals the classic cumulative-cost grid value whenever
either quantized sequence is shorter than 3 elements (fastdtw's exact
regime); for longer inputs it can exceed the classic minimum (see
`align_approximation_counterexample`). -/
theorem align_matches_classic_dtw_in_exact_regime (x y : List ℚ)
    (hx : x ≠ []) (hy : y ≠ []) (hsmall : x.length < 3 ∨ y.length < 3) :
    ∃ p, fastdtw x y = .ok (((specDtw x y : ℚ) : Cost), p) :=
  ⟨_, fastdtw_small x y hx hy hsmall⟩

/-- Witness for `align_matches_classic_dtw_in_exact_regime` at `[1]` vs
`[2, 3]`. -/
theorem align_matches_classic_dtw_witness :
    ∃ p, fastdtw [1] [2, 3] = .ok (((specDtw [1] [2, 3] : ℚ) : Cost), p) :=
  align_matches_classic_dtw_in_exact_regime [1] [2, 3] (by decide) (by decide)
    (by decide)

/-- Claim C8 amended (corrected).  Aligning a non-empty quantized sequence
with itself yields distance 0 when its length is below 3 (fastdtw's exact
regime); for longer sequences the radius-1 fastdtw approximation can report a
positive self-distance, and the alignment path need not be the identity path
(see `self_alignment_nonzero_counterexample`). -/
theorem self_alignment_zero_in_exact_regime (S : List ℚ) (hne : S ≠ [])
    (hlen : S.length < 3) :
    ∃ p, fastdtw S S = .ok (((0 : ℚ) : Cost), p) := by
  have h := fastdtw_small S S hne hne (Or.inl hlen)
  rw [specDtw_self_zero S] at h
  exact ⟨_, h⟩

/-- Witness for `self_alignment_zero_in_exact_regime` at `S = [5, 7]`. -/
theorem self_alignment_zero_witness :
    ∃ p, fastdtw [5, 7] [5, 7] = .ok (((0 : ℚ) : Cost), p) :=
  self_alignment_zero_in_exact_regime [5, 7] (by decide) (by decide)

set_option maxRecDepth 100000 in
set_option maxHeartbeats 16000000 in
/-- Claim C2 counterexample: for the quantized sequences `[0,0,0,0,0,1]` and
`[0,1,1,1,0,0]` (produced by the quantizer from onsets on the 0.2 s grid),
`compare_onsets_dtw` returns distance 4, while the classic DTW grid
recurrence yields 2. -/
theorem align_approximation_counterexample :
    compare_onsets_dtw [0, 1/5, 2/5, 3/5, 4/5, 1] [0, 1/5, 2/5, 3/5, 4/5, 1]
      [0, 0, 0, 0, 0, 1] [0, 1, 1, 1, 0, 0] =
      .ok (((4 : ℚ) : Cost), [(0, 0), (0, 1), (0, 2), (0, 3), (0, 4), (0, 5),
        (1, 5), (2, 5), (3, 5), (4, 5), (5, 5)]) ∧
    specDtw [0, 0, 0, 0, 0, 1] [0, 1, 1, 1, 0, 0] = 2 := by
  have hq1 : create_chroma_sequence [0, 1/5, 2/5, 3/5, 4/5, 1]
      [0, 0, 0, 0, 0, 1] 0.2 = .ok [0, 0, 0, 0, 0, 1] := by decide
  have hq2 : create_chroma_sequence [0, 1/5, 2/5, 3/5, 4/5, 1]
      [0, 1, 1, 1, 0, 0] 0.2 = .ok [0, 1, 1, 1, 0, 0] := by decide
  have hf : fastdtw [0, 0, 0, 0, 0, 1] [0, 1, 1, 1, 0, 0] =
      .ok (((4 : ℚ) : Cost), [(0, 0), (0, 1), (0, 2), (0, 3), (0, 4), (0, 5),
        (1, 5), (2, 5), (3, 5), (4, 5), (5, 5)]) := by decide
  refine ⟨?_, by decide⟩
  rw [compare_onsets_dtw, hq1, hq2]
  simpa [bind, Except.bind] using hf

set_option maxRecDepth 100000 in
set_option maxHeartbeats 16000000 in
/-- Claim C8 counterexample: for the quantized sequence
`S = [2,0,1,1,1,1,2,0,0,2]` (produced by the quantizer from onsets on the
0.2 s grid), aligning `S` with itself via `fastdtw` yields distance 2, not 0;
and for the quantized sequence `[4, 4]`, the self-alignment path is
`[(0,0), (0,1), (1,1)]`, not the identity path `[(0,0), (1,1)]` (ties in the
cost table are broken in favour of the up-predecessor). -/
theorem self_alignment_nonzero_counterexample :
    create_chroma_sequence [0, 1/5, 2/5, 3/5, 4/5, 1, 6/5, 7/5, 8/5, 9/5]
      [2, 0, 1, 1, 1, 1, 2, 0, 0, 2] 0.2 = .ok [2, 0, 1, 1, 1, 1, 2, 0, 0, 2] ∧
    (fastdtw [2, 0, 1, 1, 1, 1, 2, 0, 0, 2] [2, 0, 1, 1, 1, 1, 2, 0, 0, 2]).map
      (fun r => r.1) = .ok ((2 : ℚ) : Cost) ∧
    ((2 : ℚ) : Cost) ≠ ((0 : ℚ) : Cost) ∧
    create_chroma_sequence [0, 1/5] [4, 4] 0.2 = .ok [4, 4] ∧
    fastdtw [4, 4] [4, 4] = .ok (((0 : ℚ) : Cost), [(0, 0), (0, 1), (1, 1)]) ∧
    [(0, 0), (0, 1), (1, 1)] ≠ ((List.range 2).map fun i => (i, i)) :=
  ⟨by decide, by decide, by decide, by decide, by decide, by decide⟩

end MusicInformatics
